import Mathlib

/-!
Verification of `wn-pybridge/src/pybridge_helpers.py`.

The source file (after its single import of the standard `json` module) is:

    def morphy_to_json(morphy, form, pos=None):
        result = morphy(form, pos)
        return json.dumps({k if k is not None else 'null': list(v) for k, v in result.items()})

Shallow embedding choices:

* A Python dict returned by the external `morphy` lookup is modelled as an
  association list `List (Option String × List String)` in iteration
  (insertion) order; a real dict additionally guarantees that its keys are
  pairwise distinct, which appears as a `Nodup` hypothesis where needed.
* The dict comprehension is modelled by folding Python's dict-assignment
  operation (`dictInsert`: replace the value at the first occurrence of the
  key keeping its position, else append) over the transformed items.
  `list(v)` copies an ordered collection into a list; on the immutable
  model `List String` it is the identity.
* `json.dumps` with its default arguments (`ensure_ascii=True`, separators
  `", "` and `": "`) is modelled by `dumps` below, including the
  `ensure_ascii` escaping of characters outside the printable ASCII range
  (short escapes for `\" \\ \b \f \n \r \t`, `\uXXXX` with lowercase hex
  digits otherwise, surrogate pairs for code points above `0xFFFF`).
* For the round-trip and output-shape claims, `parseTop` is a strict JSON
  deserializer for the emitted fragment of JSON (an object mapping strings
  to arrays of strings); every text it accepts is valid JSON of that shape.
-/

/-- Left brace character, written numerically. -/
def lbrace : Char := Char.ofNat 123

/-- Right brace character, written numerically. -/
def rbrace : Char := Char.ofNat 125

/-- Lowercase hexadecimal digit character for `n < 16`. -/
def hexDigitChar (n : Nat) : Char :=
  if n < 10 then Char.ofNat (48 + n) else Char.ofNat (87 + n)

/-- The four hex digits of `n < 0x10000`, most significant first. -/
def toHex4 (n : Nat) : List Char :=
  [hexDigitChar (n / 4096 % 16), hexDigitChar (n / 256 % 16),
   hexDigitChar (n / 16 % 16), hexDigitChar (n % 16)]

/-- A `\uXXXX` escape sequence. -/
def uEscape (n : Nat) : List Char :=
  '\\' :: 'u' :: toHex4 n

/-- Python `json.dumps` `ensure_ascii` escaping of one character
(`py_encode_basestring_ascii`): characters in `0x20`-`0x7e` other than `"` and
`\` are literal, `\" \\ \b \f \n \r \t` have short escapes, everything else
becomes `\uXXXX` (a surrogate pair for code points above `0xFFFF`). -/
def escapeChar (c : Char) : List Char :=
  if c = '\\' then ['\\', '\\']
  else if c = '"' then ['\\', '"']
  else if c = Char.ofNat 8 then ['\\', 'b']
  else if c = Char.ofNat 12 then ['\\', 'f']
  else if c = '\n' then ['\\', 'n']
  else if c = Char.ofNat 13 then ['\\', 'r']
  else if c = '\t' then ['\\', 't']
  else if 32 ≤ c.toNat ∧ c.toNat ≤ 126 then [c]
  else if c.toNat < 65536 then uEscape c.toNat
  else uEscape (55296 + (c.toNat - 65536) / 1024) ++ uEscape (56320 + (c.toNat - 65536) % 1024)

/-- JSON string literal for `s`, as `json.dumps` renders it. -/
def encodeString (s : String) : List Char :=
  '"' :: (s.data.map escapeChar).flatten ++ ['"']

/-- Python string joining with a separator, on character lists. -/
def joinSep (sep : List Char) : List (List Char) → List Char
  | [] => []
  | [x] => x
  | x :: y :: xs => x ++ sep ++ joinSep sep (y :: xs)

/-- JSON array of strings, as `json.dumps` renders it (item separator `", "`). -/
def encodeArray (vs : List String) : List Char :=
  '[' :: joinSep [',', ' '] (vs.map encodeString) ++ [']']

/-- One `"key": [...]` object entry (key separator `": "`). -/
def encodeEntry (kv : String × List String) : List Char :=
  encodeString kv.1 ++ ':' :: ' ' :: encodeArray kv.2

/-- Embedding of `json.dumps` (default arguments) on a dict mapping strings
to lists of strings, the dict given as an association list in iteration
order. -/
def dumps (es : List (String × List String)) : String :=
  String.mk (lbrace :: joinSep [',', ' '] (es.map encodeEntry) ++ [rbrace])

/-- The key transformation of the dict comprehension:
`k if k is not None else 'null'`. -/
def keyOf : Option String → String
  | none => "null"
  | some s => s

/-- Python dict assignment `d[k] = v` on an association list: if `k` is
present, replace the value at its first occurrence keeping its position,
otherwise append the new entry. -/
def dictInsert : List (String × List String) → String → List String →
    List (String × List String)
  | [], k, v => [(k, v)]
  | (k', v') :: d, k, v =>
    if k' = k then (k', v) :: d else (k', v') :: dictInsert d k v

/-- Building a Python dict from a sequence of key-value pairs (the semantics
of a dict comprehension): successive assignments into an empty dict. -/
def pyDict (items : List (String × List String)) : List (String × List String) :=
  items.foldl (fun d kv => dictInsert d kv.1 kv.2) []

/-- The transformed item sequence of the dict comprehension, before dict
insertion: each key sent through `keyOf`, each value through `list(v)`
(the identity on this model). -/
def mapKeyOf (result : List (Option String × List String)) :
    List (String × List String) :=
  result.map (fun kv => (keyOf kv.1, kv.2))

/-- The dict comprehension
`{k if k is not None else 'null': list(v) for k, v in result.items()}`. -/
def transformMorphy (result : List (Option String × List String)) :
    List (String × List String) :=
  pyDict (mapKeyOf result)

/-- Embedding of `morphy_to_json(morphy, form, pos)`: call the external
lookup, transform the resulting mapping, serialize. -/
def morphy_to_json
    (morphy : String → Option String → List (Option String × List String))
    (form : String) (pos : Option String) : String :=
  dumps (transformMorphy (morphy form pos))

/-- Embedding of `morphy_to_json(morphy, form)` with the part-of-speech
argument omitted: the Python default `pos=None` supplies the absent
marker. -/
def morphy_to_json_default
    (morphy : String → Option String → List (Option String × List String))
    (form : String) : String :=
  morphy_to_json morphy form none

/-- State-passing embedding of `morphy_to_json` against an effectful external
lookup: the body performs exactly one lookup call (`result = morphy(form, pos)`)
followed by pure serialization. -/
def morphyToJsonSt {σ : Type}
    (morphy : String → Option String →
      σ → List (Option String × List String) × σ)
    (form : String) (pos : Option String) (s : σ) : String × σ :=
  let r := morphy form pos s
  (dumps (transformMorphy r.1), r.2)

/-- Exception-aware embedding of `morphy_to_json`: the body contains no
`try`/`except`, so a failure of the external lookup propagates and otherwise
the lookup's result is serialized. -/
def morphyToJsonE {ε : Type}
    (morphy : String → Option String →
      Except ε (List (Option String × List String)))
    (form : String) (pos : Option String) : Except ε String :=
  match morphy form pos with
  | Except.error e => Except.error e
  | Except.ok result => Except.ok (dumps (transformMorphy result))

/-- Value of one hexadecimal digit character (both cases accepted). -/
def parseHexDigit (c : Char) : Option Nat :=
  if 48 ≤ c.toNat ∧ c.toNat ≤ 57 then some (c.toNat - 48)
  else if 97 ≤ c.toNat ∧ c.toNat ≤ 102 then some (c.toNat - 87)
  else if 65 ≤ c.toNat ∧ c.toNat ≤ 70 then some (c.toNat - 55)
  else none

/-- Value of a four-hex-digit group, most significant first. -/
def hex4 (a b c d : Char) : Option Nat :=
  match parseHexDigit a, parseHexDigit b, parseHexDigit c, parseHexDigit d with
  | some w, some x, some y, some z => some (4096 * w + 256 * x + 16 * y + z)
  | _, _, _, _ => none

/-- Translation of a single-character JSON string escape. -/
def simpleEsc (e : Char) : Option Char :=
  if e = '"' then some '"'
  else if e = '\\' then some '\\'
  else if e = '/' then some '/'
  else if e = 'b' then some (Char.ofNat 8)
  else if e = 'f' then some (Char.ofNat 12)
  else if e = 'n' then some '\n'
  else if e = 'r' then some (Char.ofNat 13)
  else if e = 't' then some '\t'
  else none

/-- Decode one JSON string escape sequence (the characters after the
backslash): either a single-character escape or a `\uXXXX` group, where a
high surrogate must be followed by an escaped low surrogate and the pair is
recombined into one code point.  Returns the decoded character and the rest
of the input. -/
def escDecode : List Char → Option (Char × List Char)
  | 'u' :: a :: b :: c :: d :: r =>
    (match hex4 a b c d with
     | none => none
     | some n =>
       if n < 55296 then some (Char.ofNat n, r)
       else if n < 56320 then
         match r with
         | '\\' :: 'u' :: a2 :: b2 :: c2 :: d2 :: r2 =>
           (match hex4 a2 b2 c2 d2 with
            | some m =>
              if 56320 ≤ m ∧ m < 57344 then
                some (Char.ofNat (65536 + (n - 55296) * 1024 + (m - 56320)), r2)
              else none
            | none => none)
         | _ => none
       else if n < 57344 then none
       else some (Char.ofNat n, r))
  | e :: r =>
    (match simpleEsc e with
     | some ch => some (ch, r)
     | none => none)
  | [] => none

/-- Decoding an escape sequence consumes at least one character. -/
theorem escDecode_length {l : List Char} {ch : Char} {r : List Char}
    (h : escDecode l = some (ch, r)) : r.length < l.length := by
  rw [escDecode.eq_def] at h
  repeat' split at h
  all_goals simp at h
  all_goals (obtain ⟨h2, h3⟩ := h; subst h3; simp only [List.length_cons]; omega)

/-- Prepend a decoded character to a string-body parse result. -/
def consChar (c : Char) (p : Option (List Char × List Char)) :
    Option (List Char × List Char) :=
  p.map (fun q => (c :: q.1, q.2))

/-- Parse the body of a JSON string literal (the opening quote already
consumed) up to and including the closing quote, returning the decoded
characters and the remaining input.  Escapes follow the JSON grammar; lone
surrogates and raw control characters are rejected. -/
def parseStringBody (l : List Char) : Option (List Char × List Char) :=
  match l with
  | [] => none
  | c :: r =>
    if c = '"' then some ([], r)
    else if c = '\\' then
      match h : escDecode r with
      | some p => consChar p.1 (parseStringBody p.2)
      | none => none
    else if c.toNat < 32 then none
    else consChar c (parseStringBody r)
termination_by l.length
decreasing_by
  · have := escDecode_length h
    simp only [List.length_cons]
    omega
  · simp


/-- Every character's code point avoids the surrogate range and is below
`0x110000`. -/
theorem char_range (c : Char) :
    c.toNat < 55296 ∨ (57343 < c.toNat ∧ c.toNat < 1114112) := by
  have h := c.valid
  simp only [Char.toNat]
  rcases h with h | h
  · exact Or.inl h
  · exact Or.inr h

/-- A hexadecimal digit character parses back to its value. -/
theorem hexdig_rt : ∀ d, d < 16 → parseHexDigit (hexDigitChar d) = some d := by
  decide

/-- The four hex digits emitted for `n < 0x10000` parse back to `n`. -/
theorem hex4_toHex4 {n : Nat} (hn : n < 65536) :
    hex4 (hexDigitChar (n / 4096 % 16)) (hexDigitChar (n / 256 % 16))
      (hexDigitChar (n / 16 % 16)) (hexDigitChar (n % 16)) = some n := by
  have h1 := hexdig_rt (n / 4096 % 16) (by omega)
  have h2 := hexdig_rt (n / 256 % 16) (by omega)
  have h3 := hexdig_rt (n / 16 % 16) (by omega)
  have h4 := hexdig_rt (n % 16) (by omega)
  simp only [hex4, h1, h2, h3, h4]
  congr 1
  omega

/-- Unfolding: a string body beginning with the closing quote. -/
theorem psb_quote (r : List Char) : parseStringBody ('"' :: r) = some ([], r) := by
  rw [parseStringBody.eq_def]
  simp

theorem psb_esc {r : List Char} {p : Char × List Char} (h : escDecode r = some p) :
    parseStringBody ('\\' :: r) = consChar p.1 (parseStringBody p.2) := by
  rw [parseStringBody.eq_def]
  split
  · simp_all
  · rename_i l c2 r2 heq
    injection heq with hc hr
    subst hc
    subst hr
    rw [if_neg (by decide), if_pos rfl]
    split
    · rename_i p2 heq2
      rw [h] at heq2
      simp_all
    · rename_i heq2
      rw [h] at heq2
      simp_all

theorem psb_raw {c : Char} (r : List Char) (h1 : c ≠ '"') (h2 : c ≠ '\\')
    (h3 : 32 ≤ c.toNat) :
    parseStringBody (c :: r) = consChar c (parseStringBody r) := by
  rw [parseStringBody.eq_def]
  simp [h1, h2, Nat.not_lt.mpr h3]


theorem escape_step (c : Char) (tail : List Char) :
    parseStringBody (escapeChar c ++ tail) = consChar c (parseStringBody tail) := by
  by_cases h1 : c = '\\'
  · subst h1
    have he : escDecode ('\\' :: tail) = some ('\\', tail) := by
      rw [escDecode.eq_def]; simp [simpleEsc]
    rw [show escapeChar '\\' = ['\\', '\\'] from by simp [escapeChar]]
    exact psb_esc he
  by_cases h2 : c = '"'
  · subst h2
    have he : escDecode ('"' :: tail) = some ('"', tail) := by
      rw [escDecode.eq_def]; simp [simpleEsc]
    rw [show escapeChar '"' = ['\\', '"'] from by simp [escapeChar]]
    exact psb_esc he
  by_cases h3 : c = Char.ofNat 8
  · subst h3
    have he : escDecode ('b' :: tail) = some (Char.ofNat 8, tail) := by
      rw [escDecode.eq_def]; simp [simpleEsc]
    rw [show escapeChar (Char.ofNat 8) = ['\\', 'b'] from by simp [escapeChar]]
    exact psb_esc he
  by_cases h4 : c = Char.ofNat 12
  · subst h4
    have he : escDecode ('f' :: tail) = some (Char.ofNat 12, tail) := by
      rw [escDecode.eq_def]; simp [simpleEsc]
    rw [show escapeChar (Char.ofNat 12) = ['\\', 'f'] from by simp [escapeChar]]
    exact psb_esc he
  by_cases h5 : c = '\n'
  · subst h5
    have he : escDecode ('n' :: tail) = some ('\n', tail) := by
      rw [escDecode.eq_def]; simp [simpleEsc]
    rw [show escapeChar '\n' = ['\\', 'n'] from by simp [escapeChar]]
    exact psb_esc he
  by_cases h6 : c = Char.ofNat 13
  · subst h6
    have he : escDecode ('r' :: tail) = some (Char.ofNat 13, tail) := by
      rw [escDecode.eq_def]; simp [simpleEsc]
    rw [show escapeChar (Char.ofNat 13) = ['\\', 'r'] from by simp [escapeChar]]
    exact psb_esc he
  by_cases h7 : c = '\t'
  · subst h7
    have he : escDecode ('t' :: tail) = some ('\t', tail) := by
      rw [escDecode.eq_def]; simp [simpleEsc]
    rw [show escapeChar '\t' = ['\\', 't'] from by simp [escapeChar]]
    exact psb_esc he
  by_cases h9 : 32 ≤ c.toNat ∧ c.toNat ≤ 126
  · rw [show escapeChar c = [c] from by
      simp [escapeChar, h1, h2, h3, h4, h5, h6, h7, h9]]
    exact psb_raw tail h2 h1 h9.1
  by_cases h10 : c.toNat < 65536
  · have hval : c.toNat < 55296 ∨ 57343 < c.toNat := by
      rcases char_range c with hv | hv
      · exact Or.inl hv
      · exact Or.inr hv.1
    have he : escDecode ('u' :: hexDigitChar (c.toNat / 4096 % 16) ::
        hexDigitChar (c.toNat / 256 % 16) :: hexDigitChar (c.toNat / 16 % 16) ::
        hexDigitChar (c.toNat % 16) :: tail) = some (c, tail) := by
      rw [escDecode.eq_def]
      simp only [hex4_toHex4 h10]
      rcases hval with hv | hv
      · simp [hv, Char.ofNat_toNat]
      · have n1 : ¬c.toNat < 55296 := by omega
        have n2 : ¬c.toNat < 56320 := by omega
        have n3 : ¬c.toNat < 57344 := by omega
        simp [n1, n2, n3, Char.ofNat_toNat]
    have hshape : escapeChar c ++ tail = '\\' :: 'u' ::
        hexDigitChar (c.toNat / 4096 % 16) :: hexDigitChar (c.toNat / 256 % 16) ::
        hexDigitChar (c.toNat / 16 % 16) :: hexDigitChar (c.toNat % 16) :: tail := by
      simp [escapeChar, h1, h2, h3, h4, h5, h6, h7, h9, h10, uEscape, toHex4]
    rw [hshape]
    exact psb_esc he
  · have hval : c.toNat < 1114112 := by
      rcases char_range c with hv | hv
      · omega
      · exact hv.2
    have hbig : 65536 ≤ c.toNat := by omega
    have hhi : 55296 + (c.toNat - 65536) / 1024 < 65536 := by omega
    have hlo : 56320 + (c.toNat - 65536) % 1024 < 65536 := by omega
    have he : escDecode ('u' ::
        hexDigitChar ((55296 + (c.toNat - 65536) / 1024) / 4096 % 16) ::
        hexDigitChar ((55296 + (c.toNat - 65536) / 1024) / 256 % 16) ::
        hexDigitChar ((55296 + (c.toNat - 65536) / 1024) / 16 % 16) ::
        hexDigitChar ((55296 + (c.toNat - 65536) / 1024) % 16) :: '\\' :: 'u' ::
        hexDigitChar ((56320 + (c.toNat - 65536) % 1024) / 4096 % 16) ::
        hexDigitChar ((56320 + (c.toNat - 65536) % 1024) / 256 % 16) ::
        hexDigitChar ((56320 + (c.toNat - 65536) % 1024) / 16 % 16) ::
        hexDigitChar ((56320 + (c.toNat - 65536) % 1024) % 16) :: tail)
        = some (c, tail) := by
      rw [escDecode.eq_def]
      simp only [hex4_toHex4 hhi, hex4_toHex4 hlo]
      have n1 : ¬55296 + (c.toNat - 65536) / 1024 < 55296 := by omega
      have n2 : 55296 + (c.toNat - 65536) / 1024 < 56320 := by omega
      have n3 : 56320 ≤ 56320 + (c.toNat - 65536) % 1024 ∧
          56320 + (c.toNat - 65536) % 1024 < 57344 := by omega
      simp only [n1, n2, n3, if_neg, if_pos, if_true, if_false, ite_true, ite_false]
      have harith : 65536 + (55296 + (c.toNat - 65536) / 1024 - 55296) * 1024 +
          (56320 + (c.toNat - 65536) % 1024 - 56320) = c.toNat := by omega
      have harith2 : 65536 + (c.toNat - 65536) / 1024 * 1024 +
          (c.toNat - 65536) % 1024 = c.toNat := by omega
      simp [harith, harith2, Char.ofNat_toNat]
    have hshape : escapeChar c ++ tail = '\\' :: 'u' ::
        hexDigitChar ((55296 + (c.toNat - 65536) / 1024) / 4096 % 16) ::
        hexDigitChar ((55296 + (c.toNat - 65536) / 1024) / 256 % 16) ::
        hexDigitChar ((55296 + (c.toNat - 65536) / 1024) / 16 % 16) ::
        hexDigitChar ((55296 + (c.toNat - 65536) / 1024) % 16) :: '\\' :: 'u' ::
        hexDigitChar ((56320 + (c.toNat - 65536) % 1024) / 4096 % 16) ::
        hexDigitChar ((56320 + (c.toNat - 65536) % 1024) / 256 % 16) ::
        hexDigitChar ((56320 + (c.toNat - 65536) % 1024) / 16 % 16) ::
        hexDigitChar ((56320 + (c.toNat - 65536) % 1024) % 16) :: tail := by
      simp [escapeChar, h1, h2, h3, h4, h5, h6, h7, h9, h10, uEscape, toHex4]
    rw [hshape]
    exact psb_esc he

/-- Decoding recovers an escaped string body: the inverse direction of
`escapeChar`, lifted to whole strings followed by the closing quote. -/
theorem psb_encode : ∀ (l : List Char) (rest : List Char),
    parseStringBody ((l.map escapeChar).flatten ++ '"' :: rest) = some (l, rest) := by
  intro l
  induction l with
  | nil => intro rest; simpa using psb_quote rest
  | cons c ls ih =>
    intro rest
    simp only [List.map_cons, List.flatten_cons, List.append_assoc]
    rw [escape_step, ih]
    rfl

theorem psb_length_aux : ∀ (n : Nat) (l : List Char), l.length ≤ n →
    ∀ cs r, parseStringBody l = some (cs, r) → r.length < l.length := by
  intro n
  induction n with
  | zero =>
    intro l hlen cs r h
    have hl : l = [] := List.length_eq_zero.mp (Nat.le_zero.mp hlen)
    subst hl
    rw [parseStringBody.eq_def] at h
    simp at h
  | succ n ih =>
    intro l hlen cs r h
    rw [parseStringBody.eq_def] at h
    split at h
    · simp at h
    · rename_i c t
      split at h
      · simp at h
        obtain ⟨h1, h2⟩ := h
        subst h2
        simp
      · split at h
        · split at h
          · rename_i p heq
            simp only [consChar, Option.map_eq_some'] at h
            obtain ⟨⟨cs1, r1⟩, hp, hq⟩ := h
            simp at hq
            obtain ⟨hq1, hq2⟩ := hq
            have hlt := escDecode_length heq
            have hr := ih p.2 (by simp at hlen ⊢; omega) cs1 r1 hp
            simp at hlen ⊢
            subst hq2
            omega
          · simp at h
        · split at h
          · simp at h
          · simp only [consChar, Option.map_eq_some'] at h
            obtain ⟨⟨cs1, r1⟩, hp, hq⟩ := h
            simp at hq
            obtain ⟨hq1, hq2⟩ := hq
            have hr := ih t (by simp at hlen ⊢; omega) cs1 r1 hp
            simp at hlen ⊢
            subst hq2
            omega

theorem psb_length {l cs r : List Char} (h : parseStringBody l = some (cs, r)) :
    r.length < l.length :=
  psb_length_aux l.length l (Nat.le_refl _) cs r h

/-- Parse the items of a nonempty JSON array of string literals, after the
opening bracket: string literals separated by `", "` and terminated by `]`.
Returns the decoded strings and the remaining input. -/
def parseArrItems (l : List Char) : Option (List String × List Char) :=
  match l with
  | [] => none
  | c :: r =>
    if c = '"' then
      match h : parseStringBody r with
      | some p =>
        (match h2 : p.2 with
         | ']' :: r2 => some ([String.mk p.1], r2)
         | ',' :: ' ' :: r2 =>
           (match parseArrItems r2 with
            | some q => some (String.mk p.1 :: q.1, q.2)
            | none => none)
         | _ => none)
      | none => none
    else none
termination_by l.length
decreasing_by
  have := psb_length h
  rw [h2] at this
  simp only [List.length_cons] at *
  omega

/-- Parse a JSON array of string literals after the opening bracket: either
an immediate `]` or a nonempty item list. -/
def parseArrInner : List Char → Option (List String × List Char)
  | [] => none
  | c :: r => if c = ']' then some ([], r) else parseArrItems (c :: r)

/-- Parse a JSON array of string literals, starting at `[`. -/
def parseArr : List Char → Option (List String × List Char)
  | [] => none
  | c :: r => if c = '[' then parseArrInner r else none

/-- Parsing a nonempty array item list consumes at least one character
(bounded-length version, for strong induction). -/
theorem pai_length_aux : ∀ (n : Nat) (l : List Char), l.length ≤ n →
    ∀ vs r, parseArrItems l = some (vs, r) → r.length < l.length := by
  intro n
  induction n with
  | zero =>
    intro l hlen vs r h
    have hl : l = [] := List.length_eq_zero.mp (Nat.le_zero.mp hlen)
    subst hl
    rw [parseArrItems.eq_def] at h
    simp at h
  | succ n ih =>
    intro l hlen vs r h
    rw [parseArrItems.eq_def] at h
    split at h
    · simp at h
    · rename_i c t
      split at h
      · split at h
        · rename_i p heq
          split at h
          · rename_i r2 heq2
            simp at h
            obtain ⟨h1, h2⟩ := h
            subst h2
            have hlt := psb_length heq
            rw [heq2] at hlt
            simp at hlen hlt ⊢
            omega
          · rename_i r2 heq2
            split at h
            · rename_i q heq3
              simp at h
              obtain ⟨h1, h2⟩ := h
              subst h2
              have hlt := psb_length heq
              rw [heq2] at hlt
              have hq := ih r2 (by simp at hlen hlt ⊢; omega) q.1 q.2 heq3
              simp at hlen hlt ⊢
              omega
            · simp at h
          · simp at h
        · simp at h
      · simp at h

theorem pai_length {l : List Char} {vs : List String} {r : List Char}
    (h : parseArrItems l = some (vs, r)) : r.length < l.length :=
  pai_length_aux l.length l (Nat.le_refl _) vs r h

theorem parseArr_length {l : List Char} {vs : List String} {r : List Char}
    (h : parseArr l = some (vs, r)) : r.length < l.length := by
  match l with
  | [] => simp [parseArr] at h
  | c :: t =>
    simp only [parseArr] at h
    split at h
    · match t with
      | [] => simp [parseArrInner] at h
      | c2 :: t2 =>
        simp only [parseArrInner] at h
        split at h
        · simp at h
          obtain ⟨h1, h2⟩ := h
          subst h2
          simp
          omega
        · have := pai_length h
          simp at this ⊢
          omega
    · simp at h

/-- Parse the entries of a nonempty JSON object after the opening brace:
`"key": <array>` groups separated by `", "` and terminated by the closing
brace.  Returns the entries in input order and the remaining input. -/
def parseEntries (l : List Char) : Option (List (String × List String) × List Char) :=
  match l with
  | [] => none
  | c :: r =>
    if c = '"' then
      match h : parseStringBody r with
      | some p =>
        (match h2 : p.2 with
         | ':' :: ' ' :: r2 =>
           (match h3 : parseArr r2 with
            | some q =>
              (match h4 : q.2 with
               | ',' :: ' ' :: r4 =>
                 (match parseEntries r4 with
                  | some w => some ((String.mk p.1, q.1) :: w.1, w.2)
                  | none => none)
               | c3 :: r3 =>
                 if c3 = rbrace then some ([(String.mk p.1, q.1)], r3)
                 else none
               | [] => none)
            | none => none)
         | _ => none)
      | none => none
    else none
termination_by l.length
decreasing_by
  have ha := psb_length h
  rw [h2] at ha
  have hb := parseArr_length h3
  rw [h4] at hb
  simp only [List.length_cons] at *
  omega

/-- Deserialize a JSON object whose values are arrays of strings: the
top-level entry point, accepting exactly the texts of that shape and
requiring all input to be consumed (as `json.loads` does). -/
def parseTop (s : String) : Option (List (String × List String)) :=
  match s.data with
  | [] => none
  | c :: rest =>
    if c = lbrace then
      if rest = [rbrace] then some []
      else
        match parseEntries rest with
        | some (es, []) => some es
        | _ => none
    else none

/-- A string rebuilt from its character data is itself. -/
theorem strMk (s : String) : String.mk s.data = s := rfl

theorem pai_close {X rest : List Char} {p : List Char × List Char}
    (hp : parseStringBody X = some p) (h2 : p.2 = ']' :: rest) :
    parseArrItems ('"' :: X) = some ([String.mk p.1], rest) := by
  rw [parseArrItems.eq_def]
  split
  · simp_all
  · rename_i c t heq
    injection heq with hc ht
    subst hc
    subst ht
    rw [if_pos rfl]
    split
    · rename_i p' heq1
      rw [hp] at heq1
      injection heq1 with hp1
      subst hp1
      split
      · rename_i r2 heq2
        rw [h2] at heq2
        injection heq2 with e1 e2
        subst e2
        rfl
      · rename_i r2 heq2
        rw [h2] at heq2
        simp at heq2
      · rename_i hne1 hne2
        exact absurd h2 (hne1 rest)
    · rename_i heq1
      rw [hp] at heq1
      simp at heq1

theorem pai_cont {X rest : List Char} {p : List Char × List Char}
    {q : List String × List Char}
    (hp : parseStringBody X = some p) (h2 : p.2 = ',' :: ' ' :: rest)
    (hq : parseArrItems rest = some q) :
    parseArrItems ('"' :: X) = some (String.mk p.1 :: q.1, q.2) := by
  rw [parseArrItems.eq_def]
  split
  · simp_all
  · rename_i c t heq
    injection heq with hc ht
    subst hc
    subst ht
    rw [if_pos rfl]
    split
    · rename_i p' heq1
      rw [hp] at heq1
      injection heq1 with hp1
      subst hp1
      split
      · rename_i r2 heq2
        rw [h2] at heq2
        simp at heq2
      · rename_i r2 heq2
        rw [h2] at heq2
        injection heq2 with e1 e2
        injection e2 with e3 e4
        subst e4
        split
        · rename_i q' heq3
          rw [hq] at heq3
          injection heq3 with hq1
          subst hq1
          rfl
        · rename_i heq3
          rw [hq] at heq3
          simp at heq3
      · rename_i hne1 hne2
        exact absurd h2 (hne2 rest)
    · rename_i heq1
      rw [hp] at heq1
      simp at heq1

theorem pe_close {X r2 rest : List Char} {p : List Char × List Char}
    {q : List String × List Char}
    (hp : parseStringBody X = some p) (h2 : p.2 = ':' :: ' ' :: r2)
    (hq : parseArr r2 = some q) (h4 : q.2 = rbrace :: rest) :
    parseEntries ('"' :: X) = some ([(String.mk p.1, q.1)], rest) := by
  rw [parseEntries.eq_def]
  split
  · simp_all
  · rename_i c t heq
    injection heq with hc ht
    subst hc
    subst ht
    rw [if_pos rfl]
    split
    · rename_i p' heq1
      rw [hp] at heq1
      injection heq1 with hp1
      subst hp1
      split
      · rename_i r2' heq2
        rw [h2] at heq2
        injection heq2 with e1 e2
        injection e2 with e3 e4
        subst e4
        split
        · rename_i q' heq3
          rw [hq] at heq3
          injection heq3 with hq1
          subst hq1
          split
          · rename_i r4 heq4
            rw [h4] at heq4
            injection heq4 with e5 e6
            exact absurd e5 (by decide)
          · rename_i c3 r3 hside heq4
            rw [h4] at heq4
            injection heq4 with e5 e6
            subst e5
            subst e6
            rw [if_pos rfl]
          · rename_i heq4
            rw [h4] at heq4
            simp at heq4
        · rename_i heq3
          rw [hq] at heq3
          simp at heq3
      · rename_i hne1
        exact absurd h2 (hne1 r2)
    · rename_i heq1
      rw [hp] at heq1
      simp at heq1

theorem pe_cont {X r2 rest : List Char} {p : List Char × List Char}
    {q : List String × List Char} {w : List (String × List String) × List Char}
    (hp : parseStringBody X = some p) (h2 : p.2 = ':' :: ' ' :: r2)
    (hq : parseArr r2 = some q) (h4 : q.2 = ',' :: ' ' :: rest)
    (hw : parseEntries rest = some w) :
    parseEntries ('"' :: X) = some ((String.mk p.1, q.1) :: w.1, w.2) := by
  rw [parseEntries.eq_def]
  split
  · simp_all
  · rename_i c t heq
    injection heq with hc ht
    subst hc
    subst ht
    rw [if_pos rfl]
    split
    · rename_i p' heq1
      rw [hp] at heq1
      injection heq1 with hp1
      subst hp1
      split
      · rename_i r2' heq2
        rw [h2] at heq2
        injection heq2 with e1 e2
        injection e2 with e3 e4
        subst e4
        split
        · rename_i q' heq3
          rw [hq] at heq3
          injection heq3 with hq1
          subst hq1
          split
          · rename_i r4 heq4
            rw [h4] at heq4
            injection heq4 with e5 e6
            injection e6 with e7 e8
            subst e8
            split
            · rename_i w' heq5
              rw [hw] at heq5
              injection heq5 with hw1
              subst hw1
              rfl
            · rename_i heq5
              rw [hw] at heq5
              simp at heq5
          · rename_i c3 r3 hside heq4
            rw [h4] at heq4
            injection heq4 with e5 e6
            exact (hside rest e5.symm e6.symm).elim
          · rename_i heq4
            rw [h4] at heq4
            simp at heq4
        · rename_i heq3
          rw [hq] at heq3
          simp at heq3
      · rename_i hne1
        exact absurd h2 (hne1 r2)
    · rename_i heq1
      rw [hp] at heq1
      simp at heq1

/-- A nonempty encoded item list parses back to its strings. -/
theorem arrItems_parse : ∀ (vs : List String) (v : String) (rest : List Char),
    parseArrItems (joinSep [',', ' '] ((v :: vs).map encodeString) ++ ']' :: rest)
      = some (v :: vs, rest) := by
  intro vs
  induction vs with
  | nil =>
    intro v rest
    have hshape : joinSep [',', ' '] ([v].map encodeString) ++ ']' :: rest =
        '"' :: ((v.data.map escapeChar).flatten ++ '"' :: ']' :: rest) := by
      simp [joinSep, encodeString]
    rw [hshape]
    exact pai_close (psb_encode v.data (']' :: rest)) rfl
  | cons w ws ih =>
    intro v rest
    have hshape : joinSep [',', ' '] ((v :: w :: ws).map encodeString) ++ ']' :: rest =
        '"' :: ((v.data.map escapeChar).flatten ++ '"' :: ',' :: ' ' ::
          (joinSep [',', ' '] ((w :: ws).map encodeString) ++ ']' :: rest)) := by
      simp [joinSep, encodeString]
    rw [hshape]
    exact pai_cont
      (psb_encode v.data (',' :: ' ' ::
        (joinSep [',', ' '] ((w :: ws).map encodeString) ++ ']' :: rest)))
      rfl (ih w rest)

theorem joinSep_encStr_head (v : String) (ws : List String) :
    ∃ t, joinSep [',', ' '] (encodeString v :: ws.map encodeString) = '"' :: t := by
  cases ws with
  | nil => exact ⟨_, rfl⟩
  | cons w ls => exact ⟨_, rfl⟩

theorem arr_parse : ∀ (vs : List String) (rest : List Char),
    parseArr (encodeArray vs ++ rest) = some (vs, rest) := by
  intro vs rest
  cases vs with
  | nil => simp [encodeArray, joinSep, parseArr, parseArrInner]
  | cons v ws =>
    obtain ⟨t, ht⟩ := joinSep_encStr_head v ws
    have hshape : encodeArray (v :: ws) ++ rest =
        '[' :: '"' :: (t ++ ']' :: rest) := by
      simp [encodeArray, List.map_cons, ht]
    rw [hshape]
    have hinner : parseArrInner ('"' :: (t ++ ']' :: rest)) =
        parseArrItems ('"' :: (t ++ ']' :: rest)) := by
      simp [parseArrInner]
    have harr : parseArr ('[' :: '"' :: (t ++ ']' :: rest)) =
        parseArrInner ('"' :: (t ++ ']' :: rest)) := by
      simp [parseArr]
    rw [harr, hinner, show ('"' : Char) :: (t ++ ']' :: rest) =
      joinSep [',', ' '] (encodeString v :: ws.map encodeString) ++ ']' :: rest from by
        rw [ht]; simp]
    exact arrItems_parse ws v rest

theorem entries_parse : ∀ (es : List (String × List String))
    (kv : String × List String) (rest : List Char),
    parseEntries (joinSep [',', ' '] ((kv :: es).map encodeEntry) ++ rbrace :: rest)
      = some (kv :: es, rest) := by
  intro es
  induction es with
  | nil =>
    intro kv rest
    have hshape : joinSep [',', ' '] ([kv].map encodeEntry) ++ rbrace :: rest =
        '"' :: ((kv.1.data.map escapeChar).flatten ++ '"' :: ':' :: ' ' ::
          (encodeArray kv.2 ++ rbrace :: rest)) := by
      simp [joinSep, encodeEntry, encodeString]
    rw [hshape]
    exact pe_close
      (psb_encode kv.1.data (':' :: ' ' :: (encodeArray kv.2 ++ rbrace :: rest)))
      rfl (arr_parse kv.2 (rbrace :: rest)) rfl
  | cons e2 es2 ih =>
    intro kv rest
    have hshape : joinSep [',', ' '] ((kv :: e2 :: es2).map encodeEntry) ++ rbrace :: rest =
        '"' :: ((kv.1.data.map escapeChar).flatten ++ '"' :: ':' :: ' ' ::
          (encodeArray kv.2 ++ ',' :: ' ' ::
            (joinSep [',', ' '] ((e2 :: es2).map encodeEntry) ++ rbrace :: rest))) := by
      simp [joinSep, encodeEntry, encodeString]
    rw [hshape]
    exact pe_cont
      (psb_encode kv.1.data (':' :: ' ' :: (encodeArray kv.2 ++ ',' :: ' ' ::
        (joinSep [',', ' '] ((e2 :: es2).map encodeEntry) ++ rbrace :: rest))))
      rfl
      (arr_parse kv.2 (',' :: ' ' ::
        (joinSep [',', ' '] ((e2 :: es2).map encodeEntry) ++ rbrace :: rest)))
      rfl (ih e2 rest)

theorem joinSep_encEntry_head (kv : String × List String)
    (es : List (String × List String)) :
    ∃ t, joinSep [',', ' '] (encodeEntry kv :: es.map encodeEntry) = '"' :: t := by
  cases es with
  | nil => exact ⟨_, rfl⟩
  | cons e2 ls => exact ⟨_, rfl⟩

/-- Deserializing the serializer's output recovers exactly the serialized
association list: `parseTop` is a left inverse of `dumps`. -/
theorem parse_dumps : ∀ es : List (String × List String),
    parseTop (dumps es) = some es := by
  intro es
  cases es with
  | nil => rfl
  | cons kv es2 =>
    obtain ⟨t, ht⟩ := joinSep_encEntry_head kv es2
    have hdata : (dumps (kv :: es2)).data =
        lbrace :: (joinSep [',', ' '] ((kv :: es2).map encodeEntry) ++ [rbrace]) := by
      simp [dumps]
    have hne : joinSep [',', ' '] ((kv :: es2).map encodeEntry) ++ [rbrace] ≠ [rbrace] := by
      simp only [List.map_cons, ht]
      simp
    have hent : parseEntries (joinSep [',', ' '] ((kv :: es2).map encodeEntry) ++ [rbrace])
        = some (kv :: es2, []) := entries_parse es2 kv []
    rw [parseTop, hdata]
    simp only [if_pos rfl, if_neg hne, hent]
    simp

/-- Assigning a fresh key appends the new entry at the end. -/
theorem dictInsert_fresh : ∀ (d : List (String × List String)) (k : String)
    (v : List String), k ∉ d.map Prod.fst → dictInsert d k v = d ++ [(k, v)] := by
  intro d
  induction d with
  | nil => intro k v _; rfl
  | cons e d2 ih =>
    intro k v h
    obtain ⟨k', v'⟩ := e
    simp only [List.map_cons, List.mem_cons, not_or] at h
    obtain ⟨h1, h2⟩ := h
    rw [dictInsert, if_neg (fun hh => h1 hh.symm), ih k v h2]
    rfl

theorem dictInsert_update : ∀ (X : List (String × List String)) (k : String)
    (v' Y v), k ∉ X.map Prod.fst →
    dictInsert (X ++ (k, v) :: Y) k v' = X ++ (k, v') :: Y := by
  intro X
  induction X with
  | nil => intro k v' Y v _; simp [dictInsert]
  | cons e X2 ih =>
    intro k v' Y v h
    obtain ⟨k', w⟩ := e
    simp only [List.map_cons, List.mem_cons, not_or] at h
    obtain ⟨h1, h2⟩ := h
    rw [List.cons_append, dictInsert, if_neg (fun hh => h1 hh.symm),
      ih k v' Y v h2]
    rfl

theorem foldl_insert_fresh : ∀ (l acc : List (String × List String)),
    (l.map Prod.fst).Nodup →
    (∀ k, k ∈ l.map Prod.fst → k ∉ acc.map Prod.fst) →
    List.foldl (fun d kv => dictInsert d kv.1 kv.2) acc l = acc ++ l := by
  intro l
  induction l with
  | nil => intro acc _ _; simp
  | cons e l2 ih =>
    intro acc hnd hdisj
    obtain ⟨k, v⟩ := e
    simp only [List.map_cons, List.nodup_cons] at hnd
    rw [List.foldl_cons]
    simp only []
    rw [dictInsert_fresh acc k v (hdisj k (by simp))]
    rw [ih (acc ++ [(k, v)]) hnd.2
      (by
        intro k2 hk2
        simp only [List.map_append, List.mem_append, List.map_cons,
          List.map_nil, List.mem_cons, List.not_mem_nil, not_or]
        refine ⟨hdisj k2 ?_, ?_, fun hf => hf⟩
        · simp only [List.map_cons, List.mem_cons]
          exact Or.inr hk2
        · intro hcontra
          subst hcontra
          exact absurd hk2 hnd.1)]
    simp

theorem mapKeyOf_fst (l : List (Option String × List String)) :
    (mapKeyOf l).map Prod.fst = l.map (fun kv => keyOf kv.1) := by
  simp [mapKeyOf, List.map_map]

theorem pyDict_nodup (l : List (String × List String))
    (h : (l.map Prod.fst).Nodup) : pyDict l = l := by
  have hf := foldl_insert_fresh l [] h (by simp)
  simpa [pyDict] using hf

theorem transform_collision
    (A B C : List (Option String × List String)) (kF kS : Option String)
    (vF vS : List String)
    (hks : (kF = none ∧ kS = some "null") ∨ (kF = some "null" ∧ kS = none))
    (hother : ∀ kv ∈ A ++ B ++ C, kv.1 ≠ none ∧ kv.1 ≠ some "null")
    (hnd : ((A ++ B ++ C).map (fun kv => keyOf kv.1)).Nodup) :
    transformMorphy (A ++ (kF, vF) :: (B ++ (kS, vS) :: C)) =
      mapKeyOf A ++ ("null", vS) :: (mapKeyOf B ++ mapKeyOf C) ∧
    (transformMorphy (A ++ (kF, vF) :: (B ++ (kS, vS) :: C))).length + 1 =
      (A ++ (kF, vF) :: (B ++ (kS, vS) :: C)).length := by
  have hkF : keyOf kF = "null" := by
    rcases hks with ⟨h1, _⟩ | ⟨h1, _⟩ <;> subst h1 <;> rfl
  have hkS : keyOf kS = "null" := by
    rcases hks with ⟨_, h2⟩ | ⟨_, h2⟩ <;> subst h2 <;> rfl
  have hkeys : ∀ kv, kv ∈ A ++ B ++ C → keyOf kv.1 ≠ "null" := by
    intro kv hkv hcon
    obtain ⟨hn1, hn2⟩ := hother kv hkv
    cases hh : kv.1 with
    | none => exact hn1 hh
    | some s =>
      apply hn2
      rw [hh] at hcon ⊢
      simp only [keyOf] at hcon
      rw [hcon]
  simp only [List.map_append, List.nodup_append] at hnd
  obtain ⟨⟨ndA, ndB, dAB⟩, ndC, dABC⟩ := hnd
  have hAfst : (mapKeyOf A).map Prod.fst = A.map (fun kv => keyOf kv.1) :=
    mapKeyOf_fst A
  have hBfst : (mapKeyOf B).map Prod.fst = B.map (fun kv => keyOf kv.1) :=
    mapKeyOf_fst B
  have hCfst : (mapKeyOf C).map Prod.fst = C.map (fun kv => keyOf kv.1) :=
    mapKeyOf_fst C
  have hAnull : "null" ∉ (mapKeyOf A).map Prod.fst := by
    rw [hAfst]
    intro hmem
    obtain ⟨kv, hkv, hef⟩ := List.mem_map.mp hmem
    exact hkeys kv (by simp [hkv]) hef
  have hBnull : ∀ k, k ∈ (mapKeyOf B).map Prod.fst → k ≠ "null" := by
    intro k hk
    rw [hBfst] at hk
    obtain ⟨kv, hkv, hef⟩ := List.mem_map.mp hk
    rw [← hef]
    exact hkeys kv (by simp [hkv])
  have hCnull : ∀ k, k ∈ (mapKeyOf C).map Prod.fst → k ≠ "null" := by
    intro k hk
    rw [hCfst] at hk
    obtain ⟨kv, hkv, hef⟩ := List.mem_map.mp hk
    rw [← hef]
    exact hkeys kv (by simp [hkv])
  have hmk : mapKeyOf (A ++ (kF, vF) :: (B ++ (kS, vS) :: C)) =
      mapKeyOf A ++ ("null", vF) :: (mapKeyOf B ++ ("null", vS) :: mapKeyOf C) := by
    simp [mapKeyOf, hkF, hkS]
  have hmain : transformMorphy (A ++ (kF, vF) :: (B ++ (kS, vS) :: C)) =
      mapKeyOf A ++ ("null", vS) :: (mapKeyOf B ++ mapKeyOf C) := by
    rw [transformMorphy, hmk, pyDict]
    rw [List.foldl_append]
    rw [foldl_insert_fresh (mapKeyOf A) [] (by rw [hAfst]; exact ndA) (by simp)]
    rw [List.nil_append, List.foldl_cons]
    simp only []
    rw [dictInsert_fresh (mapKeyOf A) "null" vF hAnull]
    rw [List.foldl_append]
    rw [foldl_insert_fresh (mapKeyOf B) (mapKeyOf A ++ [("null", vF)])
      (by rw [hBfst]; exact ndB)
      (by
        intro k hk
        simp only [List.map_append, List.mem_append, not_or]
        constructor
        · intro hkA
          rw [hAfst] at hkA
          rw [hBfst] at hk
          exact dAB hkA hk
        · simp only [List.map_cons, List.map_nil, List.mem_cons,
            List.not_mem_nil, not_or]
          exact ⟨hBnull k hk, fun hf => hf⟩)]
    rw [List.foldl_cons]
    simp only []
    have hacc : (mapKeyOf A ++ [("null", vF)]) ++ mapKeyOf B =
        mapKeyOf A ++ ("null", vF) :: mapKeyOf B := by simp
    rw [hacc]
    rw [dictInsert_update (mapKeyOf A) "null" vS (mapKeyOf B) vF hAnull]
    rw [foldl_insert_fresh (mapKeyOf C)
      (mapKeyOf A ++ ("null", vS) :: mapKeyOf B)
      (by rw [hCfst]; exact ndC)
      (by
        intro k hk
        simp only [List.map_append, List.mem_append, List.map_cons,
          List.mem_cons, not_or]
        have hkC : k ∈ C.map (fun kv => keyOf kv.1) := by rw [← hCfst]; exact hk
        have hnotAB : k ∉ A.map (fun kv => keyOf kv.1) ∧
            k ∉ B.map (fun kv => keyOf kv.1) := by
          constructor
          · intro hkA
            exact dABC (by simp [hkA]) hkC
          · intro hkB
            exact dABC (by simp [hkB]) hkC
        refine ⟨by rw [hAfst]; exact hnotAB.1, ?_, by rw [hBfst]; exact hnotAB.2⟩
        exact hCnull k hk)]
    simp
  refine ⟨hmain, ?_⟩
  rw [hmain]
  simp [mapKeyOf]
  omega

/-- Claim C1, counterexample: when the lookup's mapping contains both the
absent marker `None` and the literal key `"null"`, the serialized output is
not the serialization of the key-transformed image of the whole mapping (the
colliding entries collapse), so the claim fails as universally stated. -/
theorem claim1_counterexample :
    morphy_to_json (fun _ _ => [(none, ["a"]), (some "null", ["b"])]) "x" none ≠
      dumps (mapKeyOf [(none, ["a"]), (some "null", ["b"])]) := by
  decide

/-- Claim C1 (amended): for every mapping returned by the external lookup
whose transformed keys are pairwise distinct (in particular whenever the
mapping does not contain both `None` and the literal key `"null"`),
`morphy_to_json` serializes exactly the transformed image of the mapping:
`None` keys replaced by `"null"`, other keys kept, each value collection
listed in the lookup's iteration order. -/
theorem claim1_transform
    (morphy : String → Option String → List (Option String × List String))
    (form : String) (pos : Option String)
    (h : ((morphy form pos).map (fun kv => keyOf kv.1)).Nodup) :
    morphy_to_json morphy form pos = dumps (mapKeyOf (morphy form pos)) := by
  rw [morphy_to_json, transformMorphy,
    pyDict_nodup (mapKeyOf (morphy form pos)) (by rw [mapKeyOf_fst]; exact h)]

/-- Claim C1, witness: the amended theorem applied at a concrete lookup. -/
theorem claim1_witness :
    (([((none : Option String), ["run"]), (some "v", ["run"])].map
      (fun kv => keyOf kv.1)).Nodup) ∧
    morphy_to_json (fun _ _ => [(none, ["run"]), (some "v", ["run"])])
      "running" none =
      dumps (mapKeyOf [(none, ["run"]), (some "v", ["run"])]) :=
  ⟨by decide, claim1_transform (fun _ _ => [(none, ["run"]), (some "v", ["run"])])
    "running" none (by decide)⟩

/-- Claim C2, counterexample: at a lookup whose mapping contains both `None`
and the literal key `"null"`, deserializing the output does not recover the
key-substituted pre-serialization mapping: one entry is lost. -/
theorem claim2_counterexample :
    parseTop (morphy_to_json (fun _ _ => [(none, ["a"]), (some "null", ["b"])])
      "x" none) ≠ some (mapKeyOf [(none, ["a"]), (some "null", ["b"])]) := by
  have h1 : morphy_to_json (fun _ _ => [(none, ["a"]), (some "null", ["b"])])
      "x" none = dumps [("null", ["b"])] := by decide
  rw [h1, parse_dumps]
  decide

/-- Claim C2 (amended): for every mapping returned by the external lookup
whose transformed keys are pairwise distinct (in particular whenever the
mapping does not contain both `None` and the literal key `"null"`),
deserializing the text returned by `morphy_to_json` yields exactly the
key-substituted mapping with the same ordered value lists: no key and no
entry is lost. -/
theorem claim2_roundtrip
    (morphy : String → Option String → List (Option String × List String))
    (form : String) (pos : Option String)
    (h : ((morphy form pos).map (fun kv => keyOf kv.1)).Nodup) :
    parseTop (morphy_to_json morphy form pos) =
      some (mapKeyOf (morphy form pos)) := by
  rw [morphy_to_json, transformMorphy,
    pyDict_nodup (mapKeyOf (morphy form pos)) (by rw [mapKeyOf_fst]; exact h),
    parse_dumps]

/-- Claim C2, witness: the amended round-trip applied at a concrete lookup. -/
theorem claim2_witness :
    (([((none : Option String), ["run"]), (some "v", ["run"])].map
      (fun kv => keyOf kv.1)).Nodup) ∧
    parseTop (morphy_to_json (fun _ _ => [(none, ["run"]), (some "v", ["run"])])
      "running" none) =
      some (mapKeyOf [(none, ["run"]), (some "v", ["run"])]) :=
  ⟨by decide, claim2_roundtrip (fun _ _ => [(none, ["run"]), (some "v", ["run"])])
    "running" none (by decide)⟩

/-- Claim C3: the worked example: form `"running"`, no part-of-speech filter,
lookup returning `{None: ["run"], "v": ["run"]}`, yields exactly the text
`{"null": ["run"], "v": ["run"]}`. -/
theorem claim3_worked_example :
    morphy_to_json_default (fun _ _ => [(none, ["run"]), (some "v", ["run"])])
      "running" = "\x7b\"null\": [\"run\"], \"v\": [\"run\"]\x7d" := by
  decide

/-- Claim C4: whenever the external lookup returns the empty mapping, the
output is exactly the two-character text of an empty object. -/
theorem claim4_empty
    (morphy : String → Option String → List (Option String × List String))
    (form : String) (pos : Option String) (h : morphy form pos = []) :
    morphy_to_json morphy form pos = "\x7b\x7d" := by
  rw [morphy_to_json, h]
  rfl

/-- Claim C4, witness: the theorem applied at a concrete empty lookup. -/
theorem claim4_witness :
    ((fun (_ : String) (_ : Option String) =>
      ([] : List (Option String × List String))) "a" none = []) ∧
    morphy_to_json (fun _ _ => []) "a" none = "\x7b\x7d" :=
  ⟨rfl, claim4_empty (fun _ _ => []) "a" none rfl⟩

/-- Claim C5: determinism: two invocations with identical form and
part-of-speech whose (deterministic) external lookups agree on that input
produce identical output strings. -/
theorem claim5_deterministic
    (m1 m2 : String → Option String → List (Option String × List String))
    (form : String) (pos : Option String) (h : m1 form pos = m2 form pos) :
    morphy_to_json m1 form pos = morphy_to_json m2 form pos := by
  rw [morphy_to_json, morphy_to_json, h]

/-- Claim C5, witness: the theorem applied at a concrete lookup. -/
theorem claim5_witness :
    ((fun (_ : String) (_ : Option String) =>
        [((none : Option String), ["run"])]) "dogs" (some "n") =
      (fun _ _ => [(none, ["run"])]) "dogs" (some "n")) ∧
    morphy_to_json (fun _ _ => [(none, ["run"])]) "dogs" (some "n") =
      morphy_to_json (fun _ _ => [(none, ["run"])]) "dogs" (some "n") :=
  ⟨rfl, claim5_deterministic (fun _ _ => [(none, ["run"])])
    (fun _ _ => [(none, ["run"])]) "dogs" (some "n") rfl⟩

/-- Claim C6: no exception is caught or translated: a failing lookup
propagates its error unchanged, and on success the serializer adds no error
condition of its own. -/
theorem claim6_error_propagation {ε : Type}
    (morphy : String → Option String →
      Except ε (List (Option String × List String)))
    (form : String) (pos : Option String) :
    (∀ e : ε, morphy form pos = Except.error e →
      morphyToJsonE morphy form pos = Except.error e) ∧
    (∀ r, morphy form pos = Except.ok r →
      morphyToJsonE morphy form pos = Except.ok (dumps (transformMorphy r))) := by
  constructor
  · intro e he
    rw [morphyToJsonE, he]
  · intro r hr
    rw [morphyToJsonE, hr]

/-- Claim C6, witness: a concrete failing lookup propagates its error. -/
theorem claim6_witness :
    morphyToJsonE (fun (_ : String) (_ : Option String) =>
      (Except.error 7 : Except Nat (List (Option String × List String))))
      "a" none = Except.error 7 :=
  (claim6_error_propagation (fun _ _ => Except.error 7) "a" none).1 7 rfl

/-- Claim C7: every successful output is a valid JSON object text whose keys
are strings and whose values are arrays of strings: the deserializer accepts
it in full, recovering the transformed mapping. -/
theorem claim7_output_shape
    (morphy : String → Option String → List (Option String × List String))
    (form : String) (pos : Option String) :
    parseTop (morphy_to_json morphy form pos) =
      some (transformMorphy (morphy form pos)) := by
  rw [morphy_to_json]
  exact parse_dumps (transformMorphy (morphy form pos))

/-- Claim C8: delegation: the body performs exactly one lookup call, passing
form and part-of-speech through unchanged, and serializes exactly that
call's result; the part-of-speech defaults to the absent marker when
omitted. -/
theorem claim8_delegation :
    (∀ (m : String → Option String → List (Option String × List String))
      (form : String) (pos : Option String)
      (log : List (String × Option String)),
      morphyToJsonSt (fun f p s => (m f p, s ++ [(f, p)])) form pos log =
        (dumps (transformMorphy (m form pos)), log ++ [(form, pos)])) ∧
    (∀ (m : String → Option String → List (Option String × List String))
      (form : String),
      morphy_to_json_default m form = morphy_to_json m form none) :=
  ⟨fun _ _ _ _ => rfl, fun _ _ => rfl⟩

/-- Claim C9: statelessness: against any side-effect-free lookup the
invocation leaves the state unchanged, and the result of an invocation is
the same whether or not another invocation ran before it. -/
theorem claim9_stateless {σ : Type}
    (morphy : String → Option String →
      σ → List (Option String × List String) × σ)
    (h : ∀ f p s, (morphy f p s).2 = s)
    (f1 f2 : String) (p1 p2 : Option String) (s : σ) :
    (morphyToJsonSt morphy f1 p1 s).2 = s ∧
    (morphyToJsonSt morphy f1 p1 ((morphyToJsonSt morphy f2 p2 s).2)).1 =
      (morphyToJsonSt morphy f1 p1 s).1 := by
  constructor
  · simp [morphyToJsonSt, h]
  · simp [morphyToJsonSt, h]

/-- Claim C9, witness: the theorem applied at a concrete stateless lookup. -/
theorem claim9_witness :
    (morphyToJsonSt (fun (_ : String) (_ : Option String) (s : Nat) =>
      (([] : List (Option String × List String)), s)) "a" none 0).2 = 0 ∧
    (morphyToJsonSt (fun (_ : String) (_ : Option String) (s : Nat) =>
      (([] : List (Option String × List String)), s)) "a" none
      ((morphyToJsonSt (fun (_ : String) (_ : Option String) (s : Nat) =>
        (([] : List (Option String × List String)), s)) "b" (some "v") 0).2)).1 =
      (morphyToJsonSt (fun (_ : String) (_ : Option String) (s : Nat) =>
        (([] : List (Option String × List String)), s)) "a" none 0).1 :=
  claim9_stateless (fun _ _ s => ([], s)) (fun _ _ _ => rfl) "a" "b" none none 0

/-- Claim C10: key-collision behaviour: when the lookup's mapping contains
both the absent marker `None` (transformed to `"null"`) and the literal
string key `"null"`, the two transformed keys collide; the comprehension
keeps a single `"null"` entry, located at the first colliding position and
carrying the value of whichever of the two keys comes later in iteration
order, so the transformed mapping and the serialized output have one entry
fewer than the lookup's result. -/
theorem claim10_collision
    (A B C : List (Option String × List String)) (kF kS : Option String)
    (vF vS : List String)
    (hks : (kF = none ∧ kS = some "null") ∨ (kF = some "null" ∧ kS = none))
    (hother : ∀ kv ∈ A ++ B ++ C, kv.1 ≠ none ∧ kv.1 ≠ some "null")
    (hnd : ((A ++ B ++ C).map (fun kv => keyOf kv.1)).Nodup) :
    transformMorphy (A ++ (kF, vF) :: (B ++ (kS, vS) :: C)) =
      mapKeyOf A ++ ("null", vS) :: (mapKeyOf B ++ mapKeyOf C) ∧
    (transformMorphy (A ++ (kF, vF) :: (B ++ (kS, vS) :: C))).length + 1 =
      (A ++ (kF, vF) :: (B ++ (kS, vS) :: C)).length ∧
    (∀ (morphy : String → Option String → List (Option String × List String))
      (form : String) (pos : Option String),
      morphy form pos = A ++ (kF, vF) :: (B ++ (kS, vS) :: C) →
      morphy_to_json morphy form pos =
        dumps (mapKeyOf A ++ ("null", vS) :: (mapKeyOf B ++ mapKeyOf C))) := by
  obtain ⟨h1, h2⟩ := transform_collision A B C kF kS vF vS hks hother hnd
  refine ⟨h1, h2, ?_⟩
  intro morphy form pos hm
  rw [morphy_to_json, hm, h1]

/-- Claim C10, witness: the collision theorem applied at a concrete mapping
with both `None` and `"null"` present. -/
theorem claim10_witness :
    ((∀ kv ∈ ([(some "v", ["x"])] ++ [] ++ [] :
        List (Option String × List String)),
      kv.1 ≠ none ∧ kv.1 ≠ some "null") ∧
     (([(some "v", ["x"])] ++ [] ++ [] :
        List (Option String × List String)).map
          (fun kv => keyOf kv.1)).Nodup) ∧
    transformMorphy ([(some "v", ["x"])] ++ (none, ["a"]) ::
        ([] ++ (some "null", ["b"]) :: [])) =
      mapKeyOf [(some "v", ["x"])] ++ ("null", ["b"]) ::
        (mapKeyOf [] ++ mapKeyOf []) :=
  ⟨⟨by decide, by decide⟩,
    (claim10_collision [(some "v", ["x"])] [] [] none (some "null") ["a"] ["b"]
      (Or.inl ⟨rfl, rfl⟩) (by decide) (by decide)).1⟩
